import Mathlib

/-!
Verification of the MyKakeiboApp household-budget application.

The development shallow-embeds the state-update logic of `App.tsx`, the
aggregation and budget-progress logic of `src/AnalysisScreen.tsx`, the input
validation and category inference of `src/InputScreen.tsx` and the category
management of `src/SettingsScreen.tsx`, and proves the behavioural properties
stated for them.

Modelling conventions:
* JavaScript numbers holding money amounts are embedded as `Int` (all amounts
  in the app are integers produced by `parseInt`); the budget ratio, a true
  division, is computed in `ℚ`.
* JavaScript strings are Lean `String`s; the string operations `includes`,
  `startsWith`, `trim` and `toLowerCase` are embedded as functions on the
  character sequence (`String.data`).
* `new Date(s).getTime()` is used by the code only inside a sort comparator,
  where only the sign of differences matters.  On the canonical `YYYY-MM-DD`
  strings the app stores, `getTime` is strictly monotone in lexicographic
  string order, so it is embedded by a strictly monotone re-encoding
  (`dateKey`) of the string.
-/

namespace Kakeibo

/-- Expense record, `interface Expense` of `App.tsx`:
id, amount, category, memo, and a date kept as a `YYYY-MM-DD` string. -/
structure Expense where
  id : String
  amount : Int
  category : String
  memo : String
  date : String
deriving DecidableEq, Repr

/-- Budget record, `interface Budget` of `App.tsx`: a category and a monthly cap. -/
structure Budget where
  category : String
  amount : Int
deriving DecidableEq, Repr

/-- Strictly monotone re-encoding of `new Date(s).getTime()` for the canonical
`YYYY-MM-DD` date strings stored by the app (for fixed-width digit strings the
chronological order, the order of `getTime`, and the lexicographic order all
coincide; the sort comparator in `handleAddExpense` only consumes the order). -/
def dateKey (s : String) : Nat :=
  s.data.foldl (fun acc c => acc * 1114112 + c.toNat) 0

/-- The order imposed by the comparator
`(a, b) => new Date(b.date).getTime() - new Date(a.date).getTime()` of
`App.tsx`: `a` may precede `b` exactly when the comparator is `≤ 0`,
i.e. when `b`'s date is not after `a`'s (date descending). -/
def byDateDesc (a b : Expense) : Prop :=
  dateKey b.date ≤ dateKey a.date

instance : DecidableRel byDateDesc := fun a b =>
  inferInstanceAs (Decidable (dateKey b.date ≤ dateKey a.date))

instance : IsTotal Expense byDateDesc :=
  ⟨fun a b => Nat.le_total (dateKey b.date) (dateKey a.date)⟩

instance : IsTrans Expense byDateDesc :=
  ⟨fun _ _ _ h1 h2 => Nat.le_trans h2 h1⟩

/-- `App.tsx` `handleAddExpense` state update:
`[newExpense, ...prev].sort((a, b) => new Date(b.date).getTime() - new Date(a.date).getTime())`.
JavaScript `Array.prototype.sort` is stable (ES2019), and a stable sort by a
total preorder is extensionally unique, so it is embedded as insertion sort,
which is stable: the element consed in front stays in front of every
equal-key element. -/
def handleAddExpense (newExpense : Expense) (prev : List Expense) : List Expense :=
  List.insertionSort byDateDesc (newExpense :: prev)

/-- `App.tsx` `handleDeleteExpense`: `prev.filter(e => e.id !== id)`. -/
def handleDeleteExpense (i : String) (prev : List Expense) : List Expense :=
  prev.filter (fun e => e.id != i)

/-- `App.tsx` `handleUpdateExpense`:
`prev.map(e => e.id === updatedExpense.id ? updatedExpense : e)`. -/
def handleUpdateExpense (updatedExpense : Expense) (prev : List Expense) : List Expense :=
  prev.map (fun e => if e.id = updatedExpense.id then updatedExpense else e)

/-- `App.tsx` `handleSetBudget`: look up `findIndex(b => b.category === budget.category)`;
if found (`existingIndex > -1`) overwrite that slot, otherwise append. -/
def handleSetBudget (budget : Budget) (prev : List Budget) : List Budget :=
  match prev.findIdx? (fun b => b.category == budget.category) with
  | some i => prev.set i budget
  | none => prev ++ [budget]

/-- `App.tsx` `handleAddCategory`: `setCategories(prev => [...prev, category])`. -/
def handleAddCategory (category : String) (prev : List String) : List String :=
  prev ++ [category]

/-- `App.tsx` `handleDeleteCategory`: `setCategories(prev => prev.filter(c => c !== category))`. -/
def handleDeleteCategory (category : String) (prev : List String) : List String :=
  prev.filter (fun c => c != category)

/-- The root application state: the three collections owned by `App.tsx`. -/
structure AppState where
  expenses : List Expense
  budgets : List Budget
  categories : List String
deriving DecidableEq, Repr

/-- The effect of `handleDeleteCategory` on the whole application state:
only the `categories` collection is touched. -/
def deleteCategoryState (category : String) (s : AppState) : AppState :=
  { s with categories := handleDeleteCategory category s.categories }

/-! ### Aggregation (`src/AnalysisScreen.tsx`, `monthlyAnalysis`) -/

/-- `expense.category || '未分類'` — in JavaScript the empty string is falsy,
so an empty category is bucketed as `未分類`. -/
def effectiveCategory (c : String) : String :=
  if c = "" then "未分類" else c

/-- `expense.date.startsWith(currentYearMonth)` on the character sequence. -/
def dateStartsWith (date ym : String) : Bool :=
  ym.data.isPrefixOf date.data

/-- `expenses.filter(expense => expense.date.startsWith(currentYearMonth))`. -/
def monthlyExpenses (expenses : List Expense) (currentYearMonth : String) : List Expense :=
  expenses.filter (fun e => dateStartsWith e.date currentYearMonth)

/-- One step of the `forEach` accumulation
`totals[cat] = (totals[cat] || 0) + expense.amount`, on the association-list
view of the JavaScript object (keys kept in first-insertion order). -/
def addToTotals : List (String × Int) → String → Int → List (String × Int)
  | [], cat, amt => [(cat, amt)]
  | (c, a) :: rest, cat, amt =>
    if c = cat then (c, a + amt) :: rest else (c, a) :: addToTotals rest cat amt

/-- The `totals` object built by `monthlyAnalysis`: per-category sums over the
current month's expenses. -/
def categoryTotals (expenses : List Expense) (ym : String) : List (String × Int) :=
  (monthlyExpenses expenses ym).foldl
    (fun acc e => addToTotals acc (effectiveCategory e.category) e.amount) []

/-- The `monthlyTotal` accumulator of `monthlyAnalysis`:
`monthlyTotal += expense.amount` over the current month's expenses. -/
def monthlyTotal (expenses : List Expense) (ym : String) : Int :=
  (monthlyExpenses expenses ym).foldl (fun t e => t + e.amount) 0

/-- Sum of the values of a totals object (sum over `Object.keys`). -/
def sumSnd (l : List (String × Int)) : Int :=
  (l.map Prod.snd).sum

/-! ### Budget progress (`src/AnalysisScreen.tsx`, `renderBudgetProgress`) -/

/-- `const spent = categoryTotals[budget.category] || 0`. -/
def budgetSpent (totals : List (String × Int)) (b : Budget) : Int :=
  (totals.lookup b.category).getD 0

/-- `const progress = budget.amount > 0 ? spent / budget.amount : 0`,
computed exactly in `ℚ`. -/
def budgetProgress (totals : List (String × Int)) (b : Budget) : ℚ :=
  if 0 < b.amount then (budgetSpent totals b : ℚ) / (b.amount : ℚ) else 0

/-- `const remaining = budget.amount - spent`. -/
def budgetRemaining (totals : List (String × Int)) (b : Budget) : Int :=
  b.amount - budgetSpent totals b

/-- `const progressColor = progress > 1 ? theme.colors.error : progress > 0.8 ? 'orange' : '#4CAF50'`.
The theme's error colour is represented by the string `"theme.colors.error"`;
the three colours are the three budget tiers (over / near / under budget). -/
def progressColor (progress : ℚ) : String :=
  if 1 < progress then "theme.colors.error"
  else if (4 : ℚ) / 5 < progress then "orange"
  else "#4CAF50"

/-! ### Category inference and input validation (`src/InputScreen.tsx`) -/

/-- Check whether `pat` occurs as a contiguous run inside a character list. -/
def hasSubstrAux (pat : List Char) : List Char → Bool
  | [] => pat.isEmpty
  | c :: cs => pat.isPrefixOf (c :: cs) || hasSubstrAux pat cs

/-- `s.includes(pat)` on the character sequence. -/
def strIncludes (s pat : String) : Bool :=
  hasSubstrAux pat.data s.data

/-- `memo.toLowerCase()`; the app's keywords contain no cased letters, so the
ASCII `Char.toLower` is a faithful embedding for every memo relevant here. -/
def toLowerJS (s : String) : String :=
  ⟨s.data.map Char.toLower⟩

/-- `src/InputScreen.tsx` `getCategoryFromMemo`: lowercase the memo and test
the fixed keyword groups in order; the first matching group names the
suggested category, and `null` (`none`) is returned when no keyword occurs. -/
def getCategoryFromMemo (memo : String) : Option String :=
  let lowerMemo := toLowerJS memo
  if strIncludes lowerMemo "食" || strIncludes lowerMemo "コンビニ" || strIncludes lowerMemo "スーパー" then
    some "食費"
  else if strIncludes lowerMemo "電車" || strIncludes lowerMemo "バス" || strIncludes lowerMemo "タクシー" then
    some "交通費"
  else if strIncludes lowerMemo "薬" || strIncludes lowerMemo "日用品" then
    some "日用品"
  else if strIncludes lowerMemo "ゲーム" || strIncludes lowerMemo "趣味" then
    some "娯楽"
  else if strIncludes lowerMemo "家賃" || strIncludes lowerMemo "電気" then
    some "住居費"
  else
    none

/-- The keyword-to-category tables of `getCategoryFromMemo`, in source order
(food first, then transport, daily goods, leisure, housing). -/
def keywordTables : List (List String × String) :=
  [(["食", "コンビニ", "スーパー"], "食費"),
   (["電車", "バス", "タクシー"], "交通費"),
   (["薬", "日用品"], "日用品"),
   (["ゲーム", "趣味"], "娯楽"),
   (["家賃", "電気"], "住居費")]

/-- First-match lookup over the keyword tables: the category of the first
table one of whose keywords occurs in the lowercased memo. -/
def firstMatchingTable (memo : String) : Option String :=
  (keywordTables.find? (fun t => t.1.any (fun kw => strIncludes (toLowerJS memo) kw))).map Prod.snd

/-- JavaScript whitespace as used by `trim` and `parseInt` (the characters the
app can realistically receive from its text inputs). -/
def isWhitespaceJS (c : Char) : Bool :=
  c = ' ' || c = '\t' || c = '\n' || c = '\r'

/-- `s.trim()` on the character sequence. -/
def trimJS (s : String) : String :=
  ⟨((s.data.dropWhile isWhitespaceJS).reverse.dropWhile isWhitespaceJS).reverse⟩

/-- Value of a maximal leading run of decimal digits; `none` when the run is
empty (the `NaN` case of `parseInt`). -/
def leadingDigitsVal (cs : List Char) : Option Nat :=
  let ds := cs.takeWhile Char.isDigit
  if ds.isEmpty then none
  else some (ds.foldl (fun acc c => acc * 10 + (c.toNat - 48)) 0)

/-- `parseInt(s, 10)`: skip leading whitespace, read an optional sign, then
the maximal run of leading decimal digits; `NaN` is embedded as `none`. -/
def parseIntJS (s : String) : Option Int :=
  match s.data.dropWhile isWhitespaceJS with
  | '-' :: rest => (leadingDigitsVal rest).map (fun n => -(n : Int))
  | '+' :: rest => (leadingDigitsVal rest).map (fun n => (n : Int))
  | rest => (leadingDigitsVal rest).map (fun n => (n : Int))

/-- The form state of `InputScreen`: the amount text field, the selected
category, the memo, and the selected date (kept as `YYYY-MM-DD`). -/
structure InputState where
  amountInput : String
  category : String
  memo : String
  date : String
deriving DecidableEq, Repr

/-- Outcome of pressing the submit button: the resulting expense list, the
resulting form state, and the alert raised (if any). -/
structure PressResult where
  expenses : List Expense
  input : InputState
  alert : Option String
deriving DecidableEq, Repr

/-- `src/InputScreen.tsx` `handlePress` composed with the parent's
`handleAddExpense`: validate the amount (`isNaN(numAmount) || numAmount <= 0`)
and the category (`category.trim() === ''`); on failure alert and return with
nothing changed; on success add the expense and reset the form.  `newId`
stands for the generated `Date.now().toString()` identifier and `today` for
the fresh `new Date()` the date field is reset to. -/
def handlePress (st : InputState) (expenses : List Expense) (newId today : String) : PressResult :=
  match parseIntJS st.amountInput with
  | none => ⟨expenses, st, some "有効な金額を入力してください！"⟩
  | some numAmount =>
    if numAmount ≤ 0 then ⟨expenses, st, some "有効な金額を入力してください！"⟩
    else if trimJS st.category = "" then ⟨expenses, st, some "カテゴリを選択してください！"⟩
    else ⟨handleAddExpense ⟨newId, numAmount, st.category, st.memo, st.date⟩ expenses,
          ⟨"", "", "", today⟩, some "登録完了"⟩

/-- Outcome of the settings screen's add-category action: the resulting
category list, the resulting text-field content, and the alert (if any). -/
structure AddCategoryResult where
  categories : List String
  newCategory : String
  alert : Option String
deriving DecidableEq, Repr

/-- `src/SettingsScreen.tsx` `handleAdd` composed with the parent's
`handleAddCategory`: reject an empty trimmed name or a name already in the
list with an alert and no change; otherwise append the trimmed name and clear
the field. -/
def handleAddCat (newCategory : String) (categories : List String) : AddCategoryResult :=
  if trimJS newCategory = "" then
    ⟨categories, newCategory, some "カテゴリ名を入力してください"⟩
  else if categories.contains (trimJS newCategory) then
    ⟨categories, newCategory, some "そのカテゴリは既に存在します"⟩
  else
    ⟨handleAddCategory (trimJS newCategory) categories, "", none⟩

/-! ### Helper lemmas -/

/-- Recursive form of `handleSetBudget`: replace the first entry with the
given category, or append. -/
def upsertAux (budget : Budget) : List Budget → List Budget
  | [] => [budget]
  | x :: xs =>
    if x.category = budget.category then budget :: xs else x :: upsertAux budget xs

theorem handleSetBudget_eq_upsertAux (budget : Budget) (prev : List Budget) :
    handleSetBudget budget prev = upsertAux budget prev := by
  induction prev with
  | nil => rfl
  | cons x xs ih =>
    by_cases h : x.category = budget.category
    · simp [handleSetBudget, upsertAux, h]
    · have hb : (x.category == budget.category) = false := by
        simpa using h
      simp only [handleSetBudget, List.findIdx?_cons, hb, if_false, upsertAux, h,
        List.findIdx?_succ]
      cases hfind : xs.findIdx? (fun b => b.category == budget.category) with
      | none =>
        simp only [handleSetBudget, hfind] at ih
        simp [hfind, ih]
      | some i =>
        simp only [handleSetBudget, hfind] at ih
        simp [hfind, List.set_cons_succ, ih]

theorem mem_upsertAux {y budget : Budget} :
    ∀ {l : List Budget}, y ∈ upsertAux budget l → y = budget ∨ y ∈ l := by
  intro l
  induction l with
  | nil => simp [upsertAux]
  | cons x xs ih =>
    intro hmem
    simp only [upsertAux] at hmem
    by_cases h : x.category = budget.category
    · rw [if_pos h] at hmem
      rcases List.mem_cons.1 hmem with rfl | hy
      · exact Or.inl rfl
      · exact Or.inr (List.mem_cons_of_mem x hy)
    · rw [if_neg h] at hmem
      rcases List.mem_cons.1 hmem with rfl | hy
      · exact Or.inr (List.mem_cons_self _ _)
      · rcases ih hy with h1 | h1
        · exact Or.inl h1
        · exact Or.inr (List.mem_cons_of_mem x h1)

theorem upsertAux_of_not_mem {budget : Budget} :
    ∀ {l : List Budget}, (∀ x ∈ l, x.category ≠ budget.category) →
      upsertAux budget l = l ++ [budget] := by
  intro l
  induction l with
  | nil => simp [upsertAux]
  | cons x xs ih =>
    intro h
    have hx := h x (List.mem_cons_self x xs)
    simp only [upsertAux, hx, if_false, List.cons_append]
    rw [ih (fun y hy => h y (List.mem_cons_of_mem x hy))]

theorem upsertAux_of_mem {budget : Budget} :
    ∀ {l : List Budget}, (∃ x ∈ l, x.category = budget.category) →
      (upsertAux budget l).length = l.length ∧ budget ∈ upsertAux budget l := by
  intro l
  induction l with
  | nil => simp
  | cons x xs ih =>
    rintro ⟨y, hy, hcat⟩
    simp only [upsertAux]
    by_cases h : x.category = budget.category
    · simp [h]
    · rcases List.mem_cons.1 hy with rfl | hy2
      · exact absurd hcat h
      · have := ih ⟨y, hy2, hcat⟩
        simp [h, this.1, this.2]

theorem upsertAux_keeps_others {budget : Budget} :
    ∀ {l : List Budget} {x : Budget}, x ∈ l → x.category ≠ budget.category →
      x ∈ upsertAux budget l := by
  intro l
  induction l with
  | nil => simp
  | cons y ys ih =>
    intro x hx hne
    simp only [upsertAux]
    by_cases h : y.category = budget.category
    · rcases List.mem_cons.1 hx with rfl | hx2
      · exact absurd h hne
      · simp [h, hx2]
    · rcases List.mem_cons.1 hx with rfl | hx2
      · simp [h]
      · simp [h, ih hx2 hne]

theorem upsertAux_nodup {budget : Budget} :
    ∀ {l : List Budget}, (l.map Budget.category).Nodup →
      ((upsertAux budget l).map Budget.category).Nodup := by
  intro l
  induction l with
  | nil => simp [upsertAux]
  | cons x xs ih =>
    intro hnd
    simp only [List.map_cons, List.nodup_cons] at hnd
    simp only [upsertAux]
    by_cases h : x.category = budget.category
    · simp only [h, if_true, List.map_cons, List.nodup_cons]
      exact ⟨h ▸ hnd.1, hnd.2⟩
    · simp only [h, if_false, List.map_cons, List.nodup_cons]
      refine ⟨?_, ih hnd.2⟩
      intro hmem
      rcases List.mem_map.1 hmem with ⟨y, hy, hcat⟩
      rcases mem_upsertAux hy with rfl | hy2
      · exact h hcat.symm
      · exact hnd.1 (List.mem_map.2 ⟨y, hy2, hcat⟩)

theorem upsertAux_unique {budget : Budget} :
    ∀ {l : List Budget}, (l.map Budget.category).Nodup →
      ∀ x ∈ upsertAux budget l, x.category = budget.category → x = budget := by
  intro l
  induction l with
  | nil =>
    intro _ x hx
    simp only [upsertAux, List.mem_singleton] at hx
    exact fun _ => hx
  | cons y ys ih =>
    intro hnd x hx hcat
    simp only [List.map_cons, List.nodup_cons] at hnd
    simp only [upsertAux] at hx
    by_cases h : y.category = budget.category
    · rw [if_pos h] at hx
      rcases List.mem_cons.1 hx with rfl | hx2
      · rfl
      · exact absurd (List.mem_map.2 ⟨x, hx2, hcat.trans h.symm⟩) hnd.1
    · rw [if_neg h] at hx
      rcases List.mem_cons.1 hx with heq | hx2
      · subst heq
        exact absurd hcat h
      · exact ih hnd.2 x hx2 hcat

/-! ### Claim theorems -/

/-- C2: for every expense list and every new expense, `handleAddExpense`
produces a list one longer, sorted by date descending, in which the new
expense sits in front of every entry that does not have a strictly later
date — in particular in front of every entry with an equal date. -/
theorem handleAddExpense_spec (e : Expense) (prev : List Expense) :
    (handleAddExpense e prev).length = prev.length + 1 ∧
    List.Sorted byDateDesc (handleAddExpense e prev) ∧
    ∃ l1 l2, handleAddExpense e prev = l1 ++ e :: l2 ∧
      ∀ x ∈ l1, dateKey e.date < dateKey x.date := by
  refine ⟨?_, ?_, ?_⟩
  · rw [handleAddExpense, List.length_insertionSort, List.length_cons]
  · exact List.sorted_insertionSort byDateDesc _
  · rw [handleAddExpense, List.insertionSort_cons_eq_take_drop]
    refine ⟨_, _, rfl, ?_⟩
    intro x hx
    have hpx := List.mem_takeWhile_imp hx
    simp only [decide_eq_true_eq, byDateDesc] at hpx
    exact Nat.lt_of_not_le hpx

/-- C3: on a budget list whose categories are pairwise distinct,
`handleSetBudget` preserves that invariant; when the category is already
present the length is unchanged, the new budget is in the result, the entry
carrying that category is exactly the new budget, and entries of other
categories survive; when it is absent the new budget is appended, so the
length grows by one. -/
theorem handleSetBudget_spec (budget : Budget) (prev : List Budget)
    (hnd : (prev.map Budget.category).Nodup) :
    ((handleSetBudget budget prev).map Budget.category).Nodup ∧
    ((∃ x ∈ prev, x.category = budget.category) →
      (handleSetBudget budget prev).length = prev.length ∧
      budget ∈ handleSetBudget budget prev ∧
      ∀ x ∈ handleSetBudget budget prev, x.category = budget.category → x = budget) ∧
    ((∀ x ∈ prev, x.category ≠ budget.category) →
      handleSetBudget budget prev = prev ++ [budget] ∧
      (handleSetBudget budget prev).length = prev.length + 1) ∧
    (∀ x ∈ prev, x.category ≠ budget.category → x ∈ handleSetBudget budget prev) := by
  rw [handleSetBudget_eq_upsertAux]
  refine ⟨upsertAux_nodup hnd, ?_, ?_, ?_⟩
  · intro hex
    exact ⟨(upsertAux_of_mem hex).1, (upsertAux_of_mem hex).2, upsertAux_unique hnd⟩
  · intro hnone
    constructor
    · exact upsertAux_of_not_mem hnone
    · rw [upsertAux_of_not_mem hnone]
      simp
  · intro x hx hne
    exact upsertAux_keeps_others hx hne

/-- Witness for C3 at a concrete input: upserting a budget for an existing
category keeps the size and replaces the entry. -/
theorem handleSetBudget_spec_witness :
    ((handleSetBudget ⟨"食費", 2000⟩ [⟨"食費", 1000⟩, ⟨"交通費", 500⟩]).map
        Budget.category).Nodup ∧
    (handleSetBudget ⟨"食費", 2000⟩ [⟨"食費", 1000⟩, ⟨"交通費", 500⟩]).length = 2 ∧
    (⟨"食費", 2000⟩ : Budget) ∈ handleSetBudget ⟨"食費", 2000⟩ [⟨"食費", 1000⟩, ⟨"交通費", 500⟩] := by
  have h := handleSetBudget_spec ⟨"食費", 2000⟩ [⟨"食費", 1000⟩, ⟨"交通費", 500⟩] (by decide)
  have h2 := h.2.1 ⟨⟨"食費", 1000⟩, by decide, rfl⟩
  exact ⟨h.1, h2.1, h2.2.1⟩

/-- C6: after `handleDeleteExpense id`, no entry with that id remains, and
when no entry had that id in the first place the list is returned unchanged. -/
theorem handleDeleteExpense_spec (i : String) (prev : List Expense) :
    (∀ e ∈ handleDeleteExpense i prev, e.id ≠ i) ∧
    ((∀ e ∈ prev, e.id ≠ i) → handleDeleteExpense i prev = prev) := by
  constructor
  · intro e he
    have := List.of_mem_filter he
    simpa using this
  · intro h
    rw [handleDeleteExpense, List.filter_eq_self]
    intro e he
    simpa using h e he

/-- Witness for C6 at a concrete input: deleting an absent id changes nothing. -/
theorem handleDeleteExpense_spec_witness :
    handleDeleteExpense "9" [⟨"1", 100, "食費", "", "2024-01-01"⟩] =
      [⟨"1", 100, "食費", "", "2024-01-01"⟩] :=
  (handleDeleteExpense_spec "9" [⟨"1", 100, "食費", "", "2024-01-01"⟩]).2 (by decide)

/-- C7: `handleUpdateExpense` keeps the length; with no matching id the list
is unchanged; a matched entry becomes the replacement (whose id equals the
matched entry's id), and entries with other ids survive. -/
theorem handleUpdateExpense_spec (u : Expense) (prev : List Expense) :
    (handleUpdateExpense u prev).length = prev.length ∧
    ((∀ e ∈ prev, e.id ≠ u.id) → handleUpdateExpense u prev = prev) ∧
    (∀ e ∈ prev, e.id = u.id → u ∈ handleUpdateExpense u prev ∧ u.id = e.id) ∧
    (∀ e ∈ prev, e.id ≠ u.id → e ∈ handleUpdateExpense u prev) := by
  refine ⟨by simp [handleUpdateExpense], ?_, ?_, ?_⟩
  · intro h
    rw [handleUpdateExpense]
    conv_rhs => rw [← List.map_id prev]
    exact List.map_congr_left (fun e he => if_neg (h e he))
  · intro e he hid
    refine ⟨List.mem_map.2 ⟨e, he, if_pos hid⟩, hid.symm⟩
  · intro e he hid
    exact List.mem_map.2 ⟨e, he, if_neg hid⟩

/-- Witness for C7 at a concrete input: updating an id that is absent leaves
the list unchanged, and updating a present id puts the replacement in. -/
theorem handleUpdateExpense_spec_witness :
    handleUpdateExpense ⟨"9", 5, "食費", "", "2024-01-02"⟩
        [⟨"1", 100, "食費", "", "2024-01-01"⟩] =
      [⟨"1", 100, "食費", "", "2024-01-01"⟩] ∧
    (⟨"1", 200, "食費", "", "2024-01-03"⟩ : Expense) ∈
      handleUpdateExpense ⟨"1", 200, "食費", "", "2024-01-03"⟩
        [⟨"1", 100, "食費", "", "2024-01-01"⟩] := by
  constructor
  · exact (handleUpdateExpense_spec ⟨"9", 5, "食費", "", "2024-01-02"⟩
      [⟨"1", 100, "食費", "", "2024-01-01"⟩]).2.1 (by decide)
  · exact ((handleUpdateExpense_spec ⟨"1", 200, "食費", "", "2024-01-03"⟩
      [⟨"1", 100, "食費", "", "2024-01-01"⟩]).2.2.1
      ⟨"1", 100, "食費", "", "2024-01-01"⟩ (by decide) rfl).1

/-- C9: deleting a category touches only the category list: the expense and
budget collections are exactly the ones from before, and the category list is
the old one with the removed name filtered out. -/
theorem deleteCategoryState_spec (category : String) (s : AppState) :
    (deleteCategoryState category s).expenses = s.expenses ∧
    (deleteCategoryState category s).budgets = s.budgets ∧
    (deleteCategoryState category s).categories =
      s.categories.filter (fun c => c != category) :=
  ⟨rfl, rfl, rfl⟩

/-- C10: `handleUpdateExpense` replaces in place, index by index, with no
re-sort: position `i` of the result is position `i` of the input, swapped for
the replacement exactly when its id matches; consequently an update that
moves a record's date can leave a date-descending list unsorted, as the
concrete two-element list shows. -/
theorem handleUpdateExpense_inplace (u : Expense) (prev : List Expense) :
    (∀ i : Nat, (handleUpdateExpense u prev)[i]? =
      (prev[i]?).map (fun e => if e.id = u.id then u else e)) ∧
    List.Sorted byDateDesc
      [⟨"1", 100, "食費", "", "2024-06-10"⟩, ⟨"2", 100, "食費", "", "2024-06-05"⟩] ∧
    ¬ List.Sorted byDateDesc
      (handleUpdateExpense ⟨"1", 100, "食費", "", "2024-06-01"⟩
        [⟨"1", 100, "食費", "", "2024-06-10"⟩, ⟨"2", 100, "食費", "", "2024-06-05"⟩]) := by
  refine ⟨?_, ?_, ?_⟩
  · intro i
    simp [handleUpdateExpense, List.getElem?_map]
  · decide
  · decide

theorem sumSnd_addToTotals (cat : String) (amt : Int) :
    ∀ acc : List (String × Int), sumSnd (addToTotals acc cat amt) = sumSnd acc + amt := by
  intro acc
  induction acc with
  | nil => simp [addToTotals, sumSnd]
  | cons p rest ih =>
    obtain ⟨c, a⟩ := p
    simp only [addToTotals]
    by_cases h : c = cat
    · rw [if_pos h]
      simp only [sumSnd, List.map_cons, List.sum_cons]
      ring
    · rw [if_neg h]
      simp only [sumSnd, List.map_cons, List.sum_cons] at ih ⊢
      rw [ih]
      ring

theorem sumSnd_foldl_totals :
    ∀ (es : List Expense) (acc : List (String × Int)),
      sumSnd (es.foldl
        (fun acc e => addToTotals acc (effectiveCategory e.category) e.amount) acc) =
      sumSnd acc + (es.map Expense.amount).sum := by
  intro es
  induction es with
  | nil => intro acc; simp
  | cons e es ih =>
    intro acc
    simp only [List.foldl_cons, List.map_cons, List.sum_cons]
    rw [ih, sumSnd_addToTotals]
    ring

theorem foldl_add_amount :
    ∀ (es : List Expense) (t : Int),
      es.foldl (fun t e => t + e.amount) t = t + (es.map Expense.amount).sum := by
  intro es
  induction es with
  | nil => intro t; simp
  | cons e es ih =>
    intro t
    simp only [List.foldl_cons, List.map_cons, List.sum_cons]
    rw [ih]
    ring

/-- C4: the per-category totals of `monthlyAnalysis` sum to the month's grand
total, which is the sum of the amounts of exactly the expenses whose date
starts with the `YYYY-MM` prefix; concretely, adding 1500 and 2000 in
category 食費 on two June 2024 dates yields a 食費 total of 3500 for
month `2024-06`. -/
theorem monthlyAnalysis_spec (expenses : List Expense) (ym : String) :
    sumSnd (categoryTotals expenses ym) = monthlyTotal expenses ym ∧
    monthlyTotal expenses ym =
      ((expenses.filter (fun e => dateStartsWith e.date ym)).map Expense.amount).sum ∧
    (categoryTotals
        (handleAddExpense ⟨"2", 2000, "食費", "", "2024-06-15"⟩
          (handleAddExpense ⟨"1", 1500, "食費", "", "2024-06-01"⟩ []))
        "2024-06").lookup "食費" = some 3500 := by
  refine ⟨?_, ?_, by decide⟩
  · rw [categoryTotals, sumSnd_foldl_totals, monthlyTotal, foldl_add_amount]
    simp [sumSnd]
  · rw [monthlyTotal, foldl_add_amount, monthlyExpenses]
    simp

theorem progressColor_tiers (p : ℚ) :
    (progressColor p = "theme.colors.error" ↔ 1 < p) ∧
    (progressColor p = "orange" ↔ (4 : ℚ) / 5 < p ∧ p ≤ 1) ∧
    (progressColor p = "#4CAF50" ↔ p ≤ (4 : ℚ) / 5) := by
  unfold progressColor
  split_ifs with h1 h2
  · exact ⟨⟨fun _ => h1, fun _ => rfl⟩,
      ⟨fun hc => absurd hc (by decide), fun hpq => absurd hpq.2 (not_le.2 h1)⟩,
      ⟨fun hc => absurd hc (by decide), fun hle => absurd (h1.trans_le hle) (by norm_num)⟩⟩
  · exact ⟨⟨fun hc => absurd hc (by decide), fun hlt => absurd hlt h1⟩,
      ⟨fun _ => ⟨h2, not_lt.1 h1⟩, fun _ => rfl⟩,
      ⟨fun hc => absurd hc (by decide), fun hle => absurd h2 (not_lt.2 hle)⟩⟩
  · exact ⟨⟨fun hc => absurd hc (by decide), fun hlt => absurd hlt h1⟩,
      ⟨fun hc => absurd hc (by decide), fun hpq => absurd hpq.1 h2⟩,
      ⟨fun _ => not_lt.1 h2, fun _ => rfl⟩⟩

/-- C1: the budget-progress computation reads the spent amount off the totals
map (0 when the category is absent), computes `remaining = cap - spent`
(possibly negative); with a positive cap the ratio is exactly `spent / cap`
and the colour tier is over-budget exactly for ratio > 1, near-budget exactly
for 0.8 < ratio ≤ 1 and under-budget exactly for ratio ≤ 0.8 (so spent 800 of
cap 1000 is under-budget, 801 is near-budget, 1001 is over-budget); with cap
0 the ratio is 0 with no division. -/
theorem renderBudgetProgress_spec (totals : List (String × Int)) (b : Budget) :
    (∀ s, totals.lookup b.category = some s → budgetSpent totals b = s) ∧
    (totals.lookup b.category = none → budgetSpent totals b = 0) ∧
    budgetRemaining totals b = b.amount - budgetSpent totals b ∧
    (0 < b.amount →
      budgetProgress totals b = (budgetSpent totals b : ℚ) / (b.amount : ℚ) ∧
      (progressColor (budgetProgress totals b) = "theme.colors.error" ↔
        1 < budgetProgress totals b) ∧
      (progressColor (budgetProgress totals b) = "orange" ↔
        (4 : ℚ) / 5 < budgetProgress totals b ∧ budgetProgress totals b ≤ 1) ∧
      (progressColor (budgetProgress totals b) = "#4CAF50" ↔
        budgetProgress totals b ≤ (4 : ℚ) / 5)) ∧
    (b.amount = 0 → budgetProgress totals b = 0) ∧
    progressColor ((800 : ℚ) / 1000) = "#4CAF50" ∧
    progressColor ((801 : ℚ) / 1000) = "orange" ∧
    progressColor ((1001 : ℚ) / 1000) = "theme.colors.error" := by
  refine ⟨?_, ?_, rfl, ?_, ?_, ?_, ?_, ?_⟩
  · intro s h
    rw [budgetSpent, h]
    rfl
  · intro h
    rw [budgetSpent, h]
    rfl
  · intro h
    exact ⟨by rw [budgetProgress, if_pos h], (progressColor_tiers _).1,
      (progressColor_tiers _).2.1, (progressColor_tiers _).2.2⟩
  · intro h
    rw [budgetProgress, if_neg]
    rw [h]
    exact lt_irrefl 0
  · exact (progressColor_tiers _).2.2.2 (by norm_num)
  · exact (progressColor_tiers _).2.1.2 (by norm_num)
  · exact (progressColor_tiers _).1.2 (by norm_num)

/-- Witness for C1 at a concrete input: with the 食費 total 800 and cap 1000
the spent amount is read off the map and the ratio is the exact quotient; a
zero cap gives ratio 0. -/
theorem renderBudgetProgress_spec_witness :
    budgetSpent [("食費", (800 : Int))] ⟨"食費", 1000⟩ = 800 ∧
    budgetProgress [("食費", (800 : Int))] ⟨"食費", 1000⟩ =
      (budgetSpent [("食費", (800 : Int))] ⟨"食費", 1000⟩ : ℚ) / ((1000 : Int) : ℚ) ∧
    budgetProgress [] ⟨"食費", 0⟩ = 0 :=
  ⟨(renderBudgetProgress_spec [("食費", 800)] ⟨"食費", 1000⟩).1 800 (by decide),
   ((renderBudgetProgress_spec [("食費", 800)] ⟨"食費", 1000⟩).2.2.2.1 (by norm_num)).1,
   (renderBudgetProgress_spec [] ⟨"食費", 0⟩).2.2.2.2.1 rfl⟩

/-- C5: `getCategoryFromMemo` is the first-match lookup over the fixed,
ordered keyword tables (food before transport before the rest): for every
memo it returns the category of the first table whose keyword occurs in the
lowercased memo and `none` when no keyword occurs; the memo コンビニでお菓子
maps to 食費 and a memo with no recognised keyword maps to `none`. -/
theorem getCategoryFromMemo_spec :
    (∀ memo : String, getCategoryFromMemo memo = firstMatchingTable memo) ∧
    getCategoryFromMemo "コンビニでお菓子" = some "食費" ∧
    getCategoryFromMemo "abc" = none := by
  refine ⟨?_, by decide, by decide⟩
  intro memo
  simp only [getCategoryFromMemo, firstMatchingTable, keywordTables, List.find?,
    List.any_cons, List.any_nil, Bool.or_false, Bool.or_assoc]
  repeat' split <;> try simp_all

/-- C8: every validation failure — amount text that does not parse to a
number, amount parsing to a non-positive number, empty trimmed category on
submission, empty trimmed new-category name, or a duplicate new-category
name — leaves the expense list (respectively the category list) and the form
input unchanged and raises an alert. -/
theorem validation_no_mutation :
    (∀ (st : InputState) (expenses : List Expense) (newId today : String),
      (parseIntJS st.amountInput = none ∨
        (∃ n, parseIntJS st.amountInput = some n ∧ n ≤ 0) ∨
        trimJS st.category = "") →
      (handlePress st expenses newId today).expenses = expenses ∧
      (handlePress st expenses newId today).input = st ∧
      (handlePress st expenses newId today).alert.isSome = true) ∧
    (∀ (newCategory : String) (categories : List String),
      (trimJS newCategory = "" ∨ trimJS newCategory ∈ categories) →
      (handleAddCat newCategory categories).categories = categories ∧
      (handleAddCat newCategory categories).newCategory = newCategory ∧
      (handleAddCat newCategory categories).alert.isSome = true) := by
  constructor
  · rintro st expenses newId today (hnone | ⟨n, hsome, hle⟩ | hcat)
    · simp [handlePress, hnone]
    · simp [handlePress, hsome, hle]
    · rw [handlePress]
      cases hp : parseIntJS st.amountInput with
      | none => exact ⟨rfl, rfl, rfl⟩
      | some n =>
        by_cases hn : n ≤ 0
        · simp [hn]
        · simp [hn, hcat]
  · rintro newCategory categories (hemp | hdup)
    · simp [handleAddCat, hemp]
    · by_cases hemp2 : trimJS newCategory = ""
      · simp [handleAddCat, hemp2]
      · simp [handleAddCat, hemp2, hdup]

/-- Witness for C8 at concrete inputs: a non-numeric amount leaves the
expense list alone, and a duplicate category name leaves the category list
alone. -/
theorem validation_no_mutation_witness :
    (handlePress ⟨"abc", "食費", "", "2024-01-01"⟩ [] "1" "2024-01-02").expenses = [] ∧
    (handleAddCat "食費" ["食費"]).categories = ["食費"] :=
  ⟨(validation_no_mutation.1 ⟨"abc", "食費", "", "2024-01-01"⟩ [] "1" "2024-01-02"
      (Or.inl (by decide))).1,
   (validation_no_mutation.2 "食費" ["食費"] (Or.inr (by decide))).1⟩

end Kakeibo
